import Mathlib

/-!
Verification of the gfwlist2pac rule engine (`gfwlist2pac.ts`).

The development shallowly embeds the rule parser (`parseGFWListRules`,
`isValidDomain`), the lookup-table builder (`generatePAC`'s grouping of
suffix domains by their last two labels) and the decision evaluator
(the emitted `FindProxyForURL` function) into Lean.  JavaScript strings
are modelled as `List Char`; JavaScript `Set`s are modelled as
duplicate-free lists in insertion order (`addToSet` appends exactly when
the element is absent, as `Set.add` does); JavaScript objects used as
string-keyed maps are modelled as association lists in key-insertion
order.  `String.toLowerCase` is modelled by `Char.toLower` applied
characterwise (they agree on ASCII, the alphabet of the rule grammar).
-/

/-- JavaScript strings, modelled as lists of characters. -/
abbrev Str := List Char

/-- Abbreviation for embedding Lean string literals into the model. -/
def str (s : String) : Str := s.toList

/-- Characterwise lowercasing; models `String.prototype.toLowerCase` (exact on ASCII). -/
def lowerStr (s : Str) : Str := s.map Char.toLower

/-- Models `String.prototype.trim`: strip whitespace from both ends. -/
def trim (s : Str) : Str :=
  ((s.dropWhile Char.isWhitespace).reverse.dropWhile Char.isWhitespace).reverse

/-- Models JavaScript `String.prototype.split(sep)` for a one-character separator. -/
def jsSplit (sep : Char) : Str → List Str
  | [] => [[]]
  | c :: rest =>
    if c = sep then [] :: jsSplit sep rest
    else
      match jsSplit sep rest with
      | [] => [[c]]
      | p :: ps => (c :: p) :: ps

/-- Models JavaScript `Array.prototype.join(sep)` for a one-character separator. -/
def jsJoin (sep : Char) : List Str → Str
  | [] => []
  | [p] => p
  | p :: ps => p ++ sep :: jsJoin sep ps

/-- Models JavaScript `String.prototype.substr(start)` (one-argument form):
a negative start is clamped to `max (length + start) 0`. -/
def jsSubstr (s : Str) (start : Int) : Str :=
  if start < 0 then s.drop ((s.length + start).toNat)
  else s.drop start.toNat

/-- Models `Set.prototype.add`: append the element exactly when it is absent. -/
def addToSet (s : List Str) (x : Str) : List Str :=
  if x ∈ s then s else s ++ [x]

/-- The character class `[-a-zA-Z0-9.]` used by the source's domain regexes. -/
def isDomainChar (c : Char) : Bool := c.isAlphanum || c = '-' || c = '.'

/-- Source `isValidDomain`: decides the regex
`^[a-zA-Z0-9][-a-zA-Z0-9.]*\.[a-zA-Z]{2,}$`.  A full match decomposes the
string as head char (alphanumeric), a run of domain characters, a dot, and a
final all-alphabetic block of length at least 2; the block after the last
dot must be that final alphabetic run. -/
def isValidDomain (s : Str) : Bool :=
  match s with
  | [] => false
  | c :: _ =>
    c.isAlphanum &&
    (let r := s.reverse
     let a := r.takeWhile Char.isAlpha
     decide (2 ≤ a.length) &&
     match r.drop a.length with
     | '.' :: q => q.dropLast.all isDomainChar
     | _ => false)

/-- Decides the bare-token regex `^[a-zA-Z0-9][-a-zA-Z0-9.]*[a-zA-Z0-9]$`
from the keyword branch of the parser. -/
def bareTokenTest : Str → Bool
  | [] => false
  | [_] => false
  | c :: rest =>
    c.isAlphanum && rest.dropLast.all isDomainChar &&
      match rest.getLast? with
      | some d => d.isAlphanum
      | none => false

/-- Models `rule.substring(1).match(/^https?:\/\/([^\/\^]+)/i)` from the
exact-domain branch: returns the captured host (the maximal nonempty run of
characters other than `/` and `^` after the scheme). -/
def matchExactUrl (t : Str) : Option Str :=
  let afterScheme : Option Str :=
    if (t.take 5).map Char.toLower = str "https" ∧ (t.drop 5).take 3 = str "://" then
      some (t.drop 8)
    else if (t.take 4).map Char.toLower = str "http" ∧ (t.drop 4).take 3 = str "://" then
      some (t.drop 7)
    else none
  match afterScheme with
  | some rest =>
    let dom := rest.takeWhile (fun c => !(c = '/') && !(c = '^'))
    if dom = [] then none else some dom
  | none => none

/-- For the fallback regex `^(?:\*\.)?([a-zA-Z0-9][-a-zA-Z0-9.]*\.[a-zA-Z]{2,})`:
the backtracking position of the `\.` is the rightmost dot inside the greedy
`[-a-zA-Z0-9.]*` run that is followed by at least two alphabetic characters. -/
def lastGoodDot (rest : Str) : Option Nat :=
  (List.range (rest.takeWhile isDomainChar).length).reverse.find? (fun k =>
    rest.get? k == some '.' &&
    (match rest.drop (k + 1) with
     | a :: b :: _ => a.isAlpha && b.isAlpha
     | _ => false))

/-- Capture of `^[a-zA-Z0-9][-a-zA-Z0-9.]*\.[a-zA-Z]{2,}` at the start of `s`
(no end anchor): the greedy match ends with the maximal alphabetic run after
the chosen dot. -/
def matchDomainCapture (s : Str) : Option Str :=
  match s with
  | [] => none
  | c :: rest =>
    if c.isAlphanum then
      match lastGoodDot rest with
      | some k => some (c :: rest.take k ++ '.' :: (rest.drop (k + 1)).takeWhile Char.isAlpha)
      | none => none
    else none

/-- Models `rule.match(/^(?:\*\.)?([a-zA-Z0-9][-a-zA-Z0-9.]*\.[a-zA-Z]{2,})/)`:
the optional `*.` prefix is tried first, and on failure the engine retries
without it (which then fails on the `*`). -/
def domainMatch (rule : Str) : Option Str :=
  match rule with
  | '*' :: '.' :: rest =>
    match matchDomainCapture rest with
    | some d => some d
    | none => matchDomainCapture rule
  | _ => matchDomainCapture rule

/-- The seven rule containers of the source's `ParsedRules` interface.
Each `Set<string>` is modelled as a duplicate-free list in insertion order. -/
structure ParsedRules where
  domains : List Str
  domainSuffixes : List Str
  domainKeywords : List Str
  urlPatterns : List Str
  regexPatterns : List Str
  whiteDomains : List Str
  whiteDomainSuffixes : List Str
deriving DecidableEq, Repr

/-- The empty `ParsedRules`, as initialised at the top of `parseGFWListRules`. -/
def emptyRules : ParsedRules :=
  { domains := [], domainSuffixes := [], domainKeywords := [], urlPatterns := []
    regexPatterns := [], whiteDomains := [], whiteDomainSuffixes := [] }

/-- Does the trimmed line start with the whitelist marker `@@`? -/
def isWhiteLine (line : Str) : Bool := decide (line.take 2 = str "@@")

/-- The rule remainder after stripping an optional leading `@@`. -/
def ruleOf (line : Str) : Str := if isWhiteLine line then line.drop 2 else line

/-- One iteration of the `for (const rawLine of lines)` loop of
`parseGFWListRules`: trim, skip blank/comment lines, then classify through
the branch cascade (regex rule, `||` suffix rule, `|` exact rule, bare
token, fallback domain extraction). -/
def parseLineInto (rules : ParsedRules) (rawLine : Str) : ParsedRules :=
  let line := trim rawLine
  if line = [] ∨ line.head? = some '!' ∨ line.head? = some '[' then rules
  else
    let isWhite := isWhiteLine line
    let rule := ruleOf line
    if rule.head? = some '/' ∧ rule.getLast? = some '/' then
      { rules with regexPatterns := addToSet rules.regexPatterns (rule.drop 1).dropLast }
    else if rule.take 2 = str "||" then
      let domain := ((rule.drop 2).takeWhile (fun c => !(c = '/'))).takeWhile (fun c => !(c = '^'))
      if domain ≠ [] ∧ isValidDomain domain then
        if isWhite then
          { rules with whiteDomainSuffixes := addToSet rules.whiteDomainSuffixes (lowerStr domain) }
        else
          { rules with domainSuffixes := addToSet rules.domainSuffixes (lowerStr domain) }
      else rules
    else if rule.head? = some '|' then
      match matchExactUrl (rule.drop 1) with
      | some domain =>
        if isValidDomain domain then
          if isWhite then
            { rules with whiteDomains := addToSet rules.whiteDomains (lowerStr domain) }
          else
            { rules with domains := addToSet rules.domains (lowerStr domain) }
        else rules
      | none => rules
    else if bareTokenTest rule then
      if isValidDomain rule then
        if isWhite then
          { rules with whiteDomainSuffixes := addToSet rules.whiteDomainSuffixes (lowerStr rule) }
        else
          { rules with domainSuffixes := addToSet rules.domainSuffixes (lowerStr rule) }
      else
        { rules with domainKeywords := addToSet rules.domainKeywords (lowerStr rule) }
    else
      match domainMatch rule with
      | some domain =>
        if isWhite then
          { rules with whiteDomainSuffixes := addToSet rules.whiteDomainSuffixes (lowerStr domain) }
        else
          { rules with domainSuffixes := addToSet rules.domainSuffixes (lowerStr domain) }
      | none => rules

/-- Folding the per-line classification over a list of raw lines. -/
def parseLines (lines : List Str) : ParsedRules :=
  lines.foldl parseLineInto emptyRules

/-- Source `parseGFWListRules`: split the content on newlines and fold. -/
def parseGFWListRules (content : Str) : ParsedRules :=
  parseLines (jsSplit '\n' content)

example : parseGFWListRules (str "||example.com/x") =
    { emptyRules with domainSuffixes := [str "example.com"] } := by decide

example : parseGFWListRules (str "@@||Example.com^") =
    { emptyRules with whiteDomainSuffixes := [str "example.com"] } := by decide

example : parseGFWListRules (str "|https://foo.example.org/path") =
    { emptyRules with domains := [str "foo.example.org"] } := by decide

example : parseGFWListRules (str "/^https?:[a-z]+/") =
    { emptyRules with regexPatterns := [str "^https?:[a-z]+"] } := by decide

example : parseGFWListRules (str "@@/foo/") =
    { emptyRules with regexPatterns := [str "foo"] } := by decide

example : parseGFWListRules (str "adtracker") =
    { emptyRules with domainKeywords := [str "adtracker"] } := by decide

example : parseGFWListRules (str "!comment\n\n||a.com\n||a.com") =
    { emptyRules with domainSuffixes := [str "a.com"] } := by decide

example : parseGFWListRules (str ".ads.example.com/banner") =
    { emptyRules with domainSuffixes := [] } := by decide

example : parseGFWListRules (str "ads.example.com/banner") =
    { emptyRules with domainSuffixes := [str "ads.example.com"] } := by decide

example : parseGFWListRules (str "*.tracker.co.uk/x") =
    { emptyRules with domainSuffixes := [str "tracker.co.uk"] } := by decide

/-- IPv4 addresses as four octets. -/
abbrev IPv4 := Nat × Nat × Nat × Nat

/-- Decimal value of an all-digit component, or `none`. -/
def digitsVal (s : Str) : Option Nat :=
  if s ≠ [] ∧ s.all Char.isDigit then
    some (s.foldl (fun n c => n * 10 + (c.toNat - 48)) 0)
  else none

/-- Modelled from the spec: the PAC environment's `dnsResolve` helper, which
is outside this repository.  Following §4.4's reading of the local shortcut
as explicit dotted-decimal prefix tests, it resolves a dotted-quad literal to
itself and is `none` on anything else (a non-literal hostname's resolution
depends on the runtime resolver, and `isInNet` is false on a failed
resolution). -/
def dnsResolve (host : Str) : Option IPv4 :=
  match jsSplit '.' host with
  | [p1, p2, p3, p4] =>
    match digitsVal p1, digitsVal p2, digitsVal p3, digitsVal p4 with
    | some a, some b, some c, some d =>
      if a ≤ 255 ∧ b ≤ 255 ∧ c ≤ 255 ∧ d ≤ 255 then some (a, b, c, d) else none
    | _, _, _, _ => none
  | _ => none

/-- Modelled from the spec: the PAC environment's `isInNet` helper — mask the
address and compare with the network; false when resolution failed. -/
def isInNet : Option IPv4 → IPv4 → IPv4 → Bool
  | none, _, _ => false
  | some (a, b, c, d), (n1, n2, n3, n4), (m1, m2, m3, m4) =>
    decide (a &&& m1 = n1 ∧ b &&& m2 = n2 ∧ c &&& m3 = n3 ∧ d &&& m4 = n4)

/-- Modelled from the spec: the PAC environment's `isPlainHostName` helper —
true when the host contains no dot. -/
def isPlainHostName (host : Str) : Bool := decide ('.' ∉ host)

/-- Modelled from the spec: `shExpMatch(host, "*.local")` — the glob `*`
matches any (possibly empty) run, so this is a `.local`-suffix test. -/
def shExpMatchDotLocal (host : Str) : Bool := decide (str ".local" <:+ host)

/-- The emitted local/private shortcut: the disjunction guarding the first
`return direct` of `FindProxyForURL` (note the source masks `127.0.0.0`
with `255.255.255.0`). -/
def isLocalNetwork (host : Str) : Bool :=
  isPlainHostName host ||
  shExpMatchDotLocal host ||
  isInNet (dnsResolve host) (10, 0, 0, 0) (255, 0, 0, 0) ||
  isInNet (dnsResolve host) (172, 16, 0, 0) (255, 240, 0, 0) ||
  isInNet (dnsResolve host) (192, 168, 0, 0) (255, 255, 0, 0) ||
  isInNet (dnsResolve host) (127, 0, 0, 0) (255, 255, 255, 0)

/-- Lookup in a string-keyed map modelled as an association list
(JavaScript object property access `m[k]`, `none` for `undefined`). -/
def mapGet : List (Str × List Str) → Str → Option (List Str)
  | [], _ => none
  | (k', vs) :: rest, k => if k' = k then some vs else mapGet rest k

/-- `if (!m[tld]) m[tld] = []; m[tld].push(domain)`: append to the bucket of
`k`, creating it when absent. -/
def bucketAdd : List (Str × List Str) → Str → Str → List (Str × List Str)
  | [], k, v => [(k, [v])]
  | (k', vs) :: rest, k, v =>
    if k' = k then (k', vs ++ [v]) :: rest else (k', vs) :: bucketAdd rest k v

/-- The last two dot-delimited labels joined with a dot:
`parts.slice(-2).join(".")` for `parts.length ≥ 2`. -/
def lastTwoJoin (parts : List Str) : Str :=
  jsJoin '.' (parts.drop (parts.length - 2))

/-- `generatePAC`'s grouping loop: each suffix domain with at least two
dot-delimited labels is pushed into the bucket keyed by its last two labels
(both arms of the source's `domain !== tld` conditional push the domain). -/
def buildSuffixMap (suffixes : List Str) : List (Str × List Str) :=
  suffixes.foldl
    (fun m domain =>
      let parts := jsSplit '.' domain
      if 2 ≤ parts.length then bucketAdd m (lastTwoJoin parts) domain else m)
    []

/-- The five lookup tables serialized into the PAC artifact by `generatePAC`. -/
structure PacTables where
  domainMap : List (Str × List Str)
  whiteMap : List (Str × List Str)
  exactDomains : List Str
  whiteExactDomains : List Str
  keywords : List Str
deriving DecidableEq, Repr

/-- `generatePAC`'s table construction (the serialized `domainMap`,
`whiteMap`, `exactDomains`, `whiteExactDomains` and `keywords` variables);
`Array.from` on a `Set` preserves insertion order, i.e. is the identity on
the list model. -/
def generatePACTables (rules : ParsedRules) : PacTables :=
  { domainMap := buildSuffixMap rules.domainSuffixes
    whiteMap := buildSuffixMap rules.whiteDomainSuffixes
    exactDomains := rules.domains
    whiteExactDomains := rules.whiteDomains
    keywords := rules.domainKeywords }

/-- The evaluator's decision; `direct` stands for the emitted `"DIRECT"`
string and `proxy` for the `"__PROXY__"` placeholder. -/
inductive Decision
  | direct
  | proxy
deriving DecidableEq, Repr

/-- The whitelist-suffix check of `FindProxyForURL`: probe the bucket of the
host's last two labels; a stored domain `d` hits when `host === d` or
`host.substr(host.length - d.length - 1) === "." + d`. -/
def suffixHitWhite (m : List (Str × List Str)) (host : Str) : Bool :=
  let parts := jsSplit '.' host
  if 2 ≤ parts.length then
    match mapGet m (lastTwoJoin parts) with
    | some ds =>
      ds.any (fun d =>
        decide (host = d) ||
        decide (jsSubstr host ((host.length : Int) - d.length - 1) = '.' :: d))
    | none => false
  else false

/-- The block-suffix check of `FindProxyForURL`: same bucket probe, written
in the source as two passes (exact equality first, then the substring test). -/
def suffixHitBlock (m : List (Str × List Str)) (host : Str) : Bool :=
  let parts := jsSplit '.' host
  if 2 ≤ parts.length then
    match mapGet m (lastTwoJoin parts) with
    | some ds =>
      ds.any (fun d => decide (host = d)) ||
        ds.any (fun d =>
          decide (jsSubstr host ((host.length : Int) - d.length - 1) = '.' :: d))
    | none => false
  else false

/-- The emitted `FindProxyForURL(url, host)`: lowercase the host, then the
local shortcut, whitelist exact, whitelist suffix, block exact, block
suffix, keyword substring scan, default direct.  The `url` argument is
never consulted. -/
def FindProxyForURL (t : PacTables) (url host0 : Str) : Decision :=
  let host := lowerStr host0
  if isLocalNetwork host then .direct
  else if t.whiteExactDomains.any (fun d => decide (host = d)) then .direct
  else if suffixHitWhite t.whiteMap host then .direct
  else if t.exactDomains.any (fun d => decide (host = d)) then .proxy
  else if suffixHitBlock t.domainMap host then .proxy
  else if t.keywords.any (fun k => decide (k <:+: host)) then .proxy
  else .direct

example :
    FindProxyForURL (generatePACTables (parseGFWListRules (str "||google.com")))
      (str "u") (str "maps.google.com") = .proxy := by decide

example :
    FindProxyForURL (generatePACTables (parseGFWListRules (str "||google.com")))
      (str "u") (str "www.youtube.com") = .direct := by decide

example :
    FindProxyForURL (generatePACTables (parseGFWListRules
      (str "||example.com\n@@||example.com"))) (str "u") (str "example.com") = .direct := by
  decide

example :
    FindProxyForURL (generatePACTables emptyRules) (str "u") (str "localhost") = .direct := by
  decide

example :
    FindProxyForURL (generatePACTables emptyRules) (str "u") (str "mypc.local") = .direct := by
  decide

example :
    FindProxyForURL (generatePACTables emptyRules) (str "u") (str "192.168.1.1") = .direct := by
  decide

example :
    FindProxyForURL (generatePACTables emptyRules) (str "u") (str "172.31.200.9") = .direct := by
  decide

example :
    FindProxyForURL (generatePACTables emptyRules) (str "u") (str "172.32.0.1") = .direct := by
  decide

example :
    FindProxyForURL
      { domainMap := [], whiteMap := [], exactDomains := [str "127.1.0.1"]
        whiteExactDomains := [], keywords := [] }
      (str "u") (str "127.1.0.1") = .proxy := by decide

example :
    FindProxyForURL
      { domainMap := [], whiteMap := [], exactDomains := [str "127.0.0.99"]
        whiteExactDomains := [], keywords := [] }
      (str "u") (str "127.0.0.99") = .direct := by decide

example :
    FindProxyForURL
      { domainMap := [], whiteMap := [], exactDomains := [], whiteExactDomains := []
        keywords := [str "evil"] }
      (str "u") (str "notevilsite.com") = .proxy := by decide

/-! ### Elementary lemmas about the JavaScript string/collection models -/

theorem jsSplit_ne_nil (sep : Char) (s : Str) : jsSplit sep s ≠ [] := by
  induction s with
  | nil => simp [jsSplit]
  | cons c rest ih =>
    unfold jsSplit
    split
    · simp
    · cases h : jsSplit sep rest <;> simp

theorem jsSplit_cons_self (sep : Char) (rest : Str) :
    jsSplit sep (sep :: rest) = [] :: jsSplit sep rest := by
  simp [jsSplit]

theorem jsSplit_cons_ne (sep c : Char) (rest : Str) (hc : c ≠ sep) {a : Str} {as : List Str}
    (h : jsSplit sep rest = a :: as) : jsSplit sep (c :: rest) = (c :: a) :: as := by
  simp only [jsSplit, if_neg hc, h]

theorem exists_jsSplit_cons (sep : Char) (s : Str) :
    ∃ a as, jsSplit sep s = a :: as := by
  cases h : jsSplit sep s with
  | nil => exact absurd h (jsSplit_ne_nil sep s)
  | cons a as => exact ⟨a, as, rfl⟩

theorem jsSplit_append (sep : Char) (p q : Str) :
    jsSplit sep (p ++ sep :: q) = jsSplit sep p ++ jsSplit sep q := by
  induction p with
  | nil => simp [jsSplit, jsSplit_cons_self]
  | cons c p' ih =>
    obtain ⟨a, as, h⟩ := exists_jsSplit_cons sep p'
    by_cases hc : c = sep
    · subst hc
      rw [List.cons_append, jsSplit_cons_self, jsSplit_cons_self, ih, List.cons_append]
    · rw [List.cons_append, jsSplit_cons_ne sep c _ hc (by rw [ih, h]; rfl),
        jsSplit_cons_ne sep c p' hc h]
      simp

theorem mem_jsSplit_of_mem {sep : Char} {s : Str} {c : Char} (h : c ∈ s) :
    c = sep ∨ ∃ p ∈ jsSplit sep s, c ∈ p := by
  induction s with
  | nil => cases h
  | cons c' rest ih =>
    obtain ⟨a, as, hsp⟩ := exists_jsSplit_cons sep rest
    by_cases hc : c' = sep
    · subst hc
      rw [jsSplit_cons_self]
      rcases List.mem_cons.mp h with rfl | hr
      · exact Or.inl rfl
      · rcases ih hr with h1 | ⟨p, hp, hcp⟩
        · exact Or.inl h1
        · exact Or.inr ⟨p, List.mem_cons_of_mem _ hp, hcp⟩
    · rw [jsSplit_cons_ne sep c' rest hc hsp]
      rcases List.mem_cons.mp h with rfl | hr
      · exact Or.inr ⟨c :: a, List.mem_cons_self _ _, List.mem_cons_self _ _⟩
      · rcases ih hr with h1 | ⟨p, hp, hcp⟩
        · exact Or.inl h1
        · rw [hsp] at hp
          rcases List.mem_cons.mp hp with rfl | hpas
          · exact Or.inr ⟨c' :: p, List.mem_cons_self _ _, List.mem_cons_of_mem _ hcp⟩
          · exact Or.inr ⟨p, List.mem_cons_of_mem _ hpas, hcp⟩

theorem two_le_jsSplit_length_iff (sep : Char) (s : Str) :
    2 ≤ (jsSplit sep s).length ↔ sep ∈ s := by
  induction s with
  | nil => simp [jsSplit]
  | cons c rest ih =>
    obtain ⟨a, as, hsp⟩ := exists_jsSplit_cons sep rest
    by_cases hc : c = sep
    · subst hc
      rw [jsSplit_cons_self]
      constructor
      · intro _; exact List.mem_cons_self _ _
      · intro _
        rw [hsp]
        simp
    · rw [jsSplit_cons_ne sep c rest hc hsp]
      rw [hsp] at ih
      simp only [List.length_cons] at ih ⊢
      simp only [List.mem_cons]
      constructor
      · intro h; exact Or.inr (ih.mp h)
      · rintro (rfl | h)
        · exact absurd rfl hc
        · exact ih.mpr h

theorem mem_addToSet_self (s : List Str) (x : Str) : x ∈ addToSet s x := by
  unfold addToSet
  split
  · assumption
  · simp

theorem mem_addToSet_of_mem {s : List Str} {y : Str} (x : Str) (h : y ∈ s) :
    y ∈ addToSet s x := by
  unfold addToSet
  split
  · exact h
  · simp [h]

theorem addToSet_eq_of_mem {s : List Str} {x : Str} (h : x ∈ s) : addToSet s x = s :=
  if_pos h

theorem subset_addToSet (s : List Str) (x : Str) : s ⊆ addToSet s x :=
  fun _ h => mem_addToSet_of_mem x h

/-! ### The naive suffix walk, as specified -/

/-- The proper dot-delimited suffixes of a string: the remainder after each
dot, in left-to-right order — exactly what repeatedly dropping the leftmost
dot-delimited label produces. -/
def tailsAfterDots : Str → List Str
  | [] => []
  | c :: rest => if c = '.' then rest :: tailsAfterDots rest else tailsAfterDots rest

/-- The host together with its proper dot-delimited suffixes (the walk of
spec §4.4 steps 3 and 5). -/
def dotSuffixes (s : Str) : List Str := s :: tailsAfterDots s

/-- From the spec's words (§4.4 steps 3/5, §4.3): the naive suffix check —
probe the host and each of its progressively shorter dot-delimited suffixes
for membership in the full stored set. -/
def naiveSuffixMatch (stored : List Str) (host : Str) : Bool :=
  (dotSuffixes host).any (fun x => decide (x ∈ stored))

theorem mem_tailsAfterDots_iff (s t : Str) :
    t ∈ tailsAfterDots s ↔ '.' :: t <:+ s := by
  induction s with
  | nil =>
    simp only [tailsAfterDots, List.not_mem_nil, false_iff]
    intro h
    have := h.length_le
    simp at this
  | cons c rest ih =>
    unfold tailsAfterDots
    by_cases hc : c = '.'
    · subst hc
      rw [if_pos rfl, List.suffix_cons_iff]
      simp only [List.mem_cons, ih]
      constructor
      · rintro (rfl | h)
        · exact Or.inl rfl
        · exact Or.inr h
      · rintro (h | h)
        · exact Or.inl (by injection h with h1 h2)
        · exact Or.inr h
    · rw [if_neg hc, List.suffix_cons_iff, ih]
      constructor
      · exact Or.inr
      · rintro (h | h)
        · injection h with h1 _; exact absurd h1.symm hc
        · exact h

theorem naiveSuffixMatch_iff (stored : List Str) (host : Str) :
    naiveSuffixMatch stored host = true ↔
      ∃ d ∈ stored, host = d ∨ '.' :: d <:+ host := by
  unfold naiveSuffixMatch dotSuffixes
  rw [List.any_eq_true]
  constructor
  · rintro ⟨x, hx, hmem⟩
    rcases List.mem_cons.mp hx with rfl | hx'
    · exact ⟨x, by simpa using hmem, Or.inl rfl⟩
    · exact ⟨x, by simpa using hmem, Or.inr ((mem_tailsAfterDots_iff host x).mp hx')⟩
  · rintro ⟨d, hd, hcase⟩
    rcases hcase with rfl | hsuf
    · exact ⟨host, List.mem_cons_self _ _, by simpa using hd⟩
    · exact ⟨d, List.mem_cons_of_mem _ ((mem_tailsAfterDots_iff host d).mpr hsuf),
        by simpa using hd⟩

/-! ### The bucketed suffix lookup -/

theorem jsSubstr_dot_iff (host d : Str) :
    jsSubstr host ((host.length : Int) - d.length - 1) = '.' :: d ↔ '.' :: d <:+ host := by
  unfold jsSubstr
  by_cases hl : d.length + 1 ≤ host.length
  · rw [if_neg (by omega)]
    have ht : (((host.length : Int) - d.length - 1)).toNat = host.length - (d.length + 1) := by
      omega
    rw [ht]
    rw [List.suffix_iff_eq_drop]
    simp only [List.length_cons]
    exact ⟨fun h => h.symm, fun h => h.symm⟩
  · constructor
    · intro h
      have := congrArg List.length h
      simp only [List.length_drop, List.length_cons] at this
      split at this <;> (simp only [List.length_drop] at this; omega)
    · intro h
      have := h.length_le
      simp only [List.length_cons] at this
      omega

theorem mapGet_bucketAdd_self (m : List (Str × List Str)) (k v : Str) :
    mapGet (bucketAdd m k v) k = some ((mapGet m k).getD [] ++ [v]) := by
  induction m with
  | nil => simp [bucketAdd, mapGet]
  | cons kv rest ih =>
    obtain ⟨k', vs⟩ := kv
    by_cases h : k' = k
    · subst h
      simp [bucketAdd, mapGet]
    · simp [bucketAdd, mapGet, h, ih]

theorem mapGet_bucketAdd_ne (m : List (Str × List Str)) {k' : Str} (k v : Str)
    (h : k' ≠ k) : mapGet (bucketAdd m k' v) k = mapGet m k := by
  induction m with
  | nil => simp [bucketAdd, mapGet, h]
  | cons kv rest ih =>
    obtain ⟨k'', vs⟩ := kv
    by_cases h2 : k'' = k'
    · subst h2
      simp [bucketAdd, mapGet, h]
    · by_cases h3 : k'' = k
      · subst h3
        simp [bucketAdd, mapGet, h2, ih]
      · simp [bucketAdd, mapGet, h2, h3, ih]

/-- Membership of a domain in the bucket of a key, packaged. -/
def bucketMem (m : List (Str × List Str)) (k d : Str) : Prop :=
  ∃ vs, mapGet m k = some vs ∧ d ∈ vs

theorem bucketMem_bucketAdd (m : List (Str × List Str)) (k' v k d : Str) :
    bucketMem (bucketAdd m k' v) k d ↔ bucketMem m k d ∨ (k' = k ∧ v = d) := by
  unfold bucketMem
  by_cases h : k' = k
  · subst h
    rw [mapGet_bucketAdd_self]
    constructor
    · rintro ⟨vs, hvs, hd⟩
      injection hvs with hvs
      rw [← hvs] at hd
      rcases List.mem_append.mp hd with h1 | h1
      · cases hmg : mapGet m k' with
        | none => rw [hmg] at h1; simp at h1
        | some ws => rw [hmg] at h1; exact Or.inl ⟨ws, rfl, by simpa using h1⟩
      · simp only [List.mem_singleton] at h1
        exact Or.inr ⟨rfl, h1.symm⟩
    · rintro (⟨vs, hvs, hd⟩ | ⟨_, rfl⟩)
      · exact ⟨_, rfl, List.mem_append.mpr (Or.inl (by rw [hvs]; simpa using hd))⟩
      · exact ⟨_, rfl, List.mem_append.mpr (Or.inr (by simp))⟩
  · rw [mapGet_bucketAdd_ne m k v h]
    constructor
    · exact Or.inl
    · rintro (hb | ⟨rfl, _⟩)
      · exact hb
      · exact absurd rfl h

theorem bucketMem_fold (suffixes : List Str) (m : List (Str × List Str)) (k d : Str) :
    bucketMem
      (suffixes.foldl
        (fun m domain =>
          let parts := jsSplit '.' domain
          if 2 ≤ parts.length then bucketAdd m (lastTwoJoin parts) domain else m)
        m) k d ↔
      bucketMem m k d ∨
        (d ∈ suffixes ∧ 2 ≤ (jsSplit '.' d).length ∧ lastTwoJoin (jsSplit '.' d) = k) := by
  induction suffixes generalizing m with
  | nil => simp
  | cons x xs ih =>
    rw [List.foldl_cons, ih]
    by_cases hx : 2 ≤ (jsSplit '.' x).length
    · rw [if_pos hx, bucketMem_bucketAdd]
      constructor
      · rintro ((hb | ⟨hk, rfl⟩) | hrest)
        · exact Or.inl hb
        · exact Or.inr ⟨List.mem_cons_self _ _, hx, hk⟩
        · exact Or.inr ⟨List.mem_cons_of_mem _ hrest.1, hrest.2⟩
      · rintro (hb | ⟨hmem, h2, hk⟩)
        · exact Or.inl (Or.inl hb)
        · rcases List.mem_cons.mp hmem with rfl | hmem'
          · exact Or.inl (Or.inr ⟨hk, rfl⟩)
          · exact Or.inr ⟨hmem', h2, hk⟩
    · rw [if_neg hx]
      constructor
      · rintro (hb | hrest)
        · exact Or.inl hb
        · exact Or.inr ⟨List.mem_cons_of_mem _ hrest.1, hrest.2⟩
      · rintro (hb | ⟨hmem, h2, hk⟩)
        · exact Or.inl hb
        · rcases List.mem_cons.mp hmem with rfl | hmem'
          · exact absurd h2 hx
          · exact Or.inr ⟨hmem', h2, hk⟩

theorem bucketMem_buildSuffixMap (suffixes : List Str) (k d : Str) :
    bucketMem (buildSuffixMap suffixes) k d ↔
      d ∈ suffixes ∧ 2 ≤ (jsSplit '.' d).length ∧ lastTwoJoin (jsSplit '.' d) = k := by
  unfold buildSuffixMap
  rw [bucketMem_fold]
  simp [bucketMem, mapGet]

theorem suffixHitWhite_iff (S : List Str) (host : Str) :
    suffixHitWhite (buildSuffixMap S) host = true ↔
      2 ≤ (jsSplit '.' host).length ∧
        ∃ d ∈ S, 2 ≤ (jsSplit '.' d).length ∧
          lastTwoJoin (jsSplit '.' d) = lastTwoJoin (jsSplit '.' host) ∧
          (host = d ∨ '.' :: d <:+ host) := by
  unfold suffixHitWhite
  by_cases hp : 2 ≤ (jsSplit '.' host).length
  · rw [if_pos hp]
    cases hmg : mapGet (buildSuffixMap S) (lastTwoJoin (jsSplit '.' host)) with
    | none =>
      simp only [Bool.false_eq_true, false_iff]
      rintro ⟨-, d, hd, h2, hk, -⟩
      have : bucketMem (buildSuffixMap S) (lastTwoJoin (jsSplit '.' host)) d :=
        (bucketMem_buildSuffixMap S _ d).mpr ⟨hd, h2, hk⟩
      obtain ⟨vs, hvs, -⟩ := this
      rw [hmg] at hvs
      cases hvs
    | some ds =>
      rw [List.any_eq_true]
      constructor
      · rintro ⟨d, hdds, hcond⟩
        have hb : bucketMem (buildSuffixMap S) (lastTwoJoin (jsSplit '.' host)) d :=
          ⟨ds, hmg, hdds⟩
        obtain ⟨hdS, h2d, hkd⟩ := (bucketMem_buildSuffixMap S _ d).mp hb
        refine ⟨hp, d, hdS, h2d, hkd, ?_⟩
        simp only [Bool.or_eq_true, decide_eq_true_eq] at hcond
        rcases hcond with h | h
        · exact Or.inl h
        · exact Or.inr ((jsSubstr_dot_iff host d).mp h)
      · rintro ⟨-, d, hdS, h2d, hkd, hcase⟩
        have hb : bucketMem (buildSuffixMap S) (lastTwoJoin (jsSplit '.' host)) d :=
          (bucketMem_buildSuffixMap S _ d).mpr ⟨hdS, h2d, hkd⟩
        obtain ⟨vs, hvs, hdvs⟩ := hb
        rw [hmg] at hvs
        injection hvs with hvs
        subst hvs
        refine ⟨d, hdvs, ?_⟩
        simp only [Bool.or_eq_true, decide_eq_true_eq]
        rcases hcase with rfl | hsuf
        · exact Or.inl rfl
        · exact Or.inr ((jsSubstr_dot_iff host d).mpr hsuf)
  · rw [if_neg hp]
    simp only [Bool.false_eq_true, false_iff]
    rintro ⟨h2, -⟩
    exact hp h2

theorem lastTwoJoin_append (A B : List Str) (h : 2 ≤ B.length) :
    lastTwoJoin (A ++ B) = lastTwoJoin B := by
  unfold lastTwoJoin
  congr 1
  rw [List.length_append]
  have h2 : A.length + B.length - 2 = A.length + (B.length - 2) := by omega
  rw [h2, List.drop_append]

theorem two_le_host_parts {d host : Str} (h : '.' :: d <:+ host) :
    2 ≤ (jsSplit '.' host).length := by
  obtain ⟨p, hp⟩ := h
  rw [← hp, jsSplit_append, List.length_append]
  obtain ⟨a, as, h1⟩ := exists_jsSplit_cons '.' p
  obtain ⟨b, bs, h2⟩ := exists_jsSplit_cons '.' d
  rw [h1, h2]
  simp only [List.length_cons]
  omega

theorem lastTwoJoin_of_suffix {d host : Str} (h : '.' :: d <:+ host)
    (h2 : 2 ≤ (jsSplit '.' d).length) :
    lastTwoJoin (jsSplit '.' d) = lastTwoJoin (jsSplit '.' host) := by
  obtain ⟨p, hp⟩ := h
  rw [← hp, jsSplit_append, lastTwoJoin_append _ _ h2]

/-- Core of the suffix-lookup refinement: when every stored suffix domain
contains a dot, the bucketed probe of `FindProxyForURL` agrees with the
naive dot-suffix walk over the full stored set. -/
theorem suffix_lookup_core (S : List Str) (host : Str) (hval : ∀ d ∈ S, '.' ∈ d) :
    suffixHitWhite (buildSuffixMap S) host = naiveSuffixMatch S host := by
  by_cases hn : naiveSuffixMatch S host = true
  · rw [hn, suffixHitWhite_iff]
    obtain ⟨d, hd, hcase⟩ := (naiveSuffixMatch_iff S host).mp hn
    have h2d : 2 ≤ (jsSplit '.' d).length :=
      (two_le_jsSplit_length_iff '.' d).mpr (hval d hd)
    rcases hcase with heq | hsuf
    · subst heq
      exact ⟨h2d, host, hd, h2d, rfl, Or.inl rfl⟩
    · exact ⟨two_le_host_parts hsuf, d, hd, h2d, lastTwoJoin_of_suffix hsuf h2d,
        Or.inr hsuf⟩
  · rw [Bool.not_eq_true] at hn
    rw [hn, ← Bool.not_eq_true, suffixHitWhite_iff]
    rintro ⟨-, d, hd, -, -, hcase⟩
    have : naiveSuffixMatch S host = true := (naiveSuffixMatch_iff S host).mpr ⟨d, hd, hcase⟩
    rw [hn] at this
    cases this

theorem any_or_split (ds : List Str) (p q : Str → Bool) :
    ds.any (fun d => p d || q d) = (ds.any p || ds.any q) := by
  induction ds with
  | nil => rfl
  | cons a as ih =>
    simp only [List.any_cons, ih]
    cases p a <;> cases q a <;> cases as.any p <;> cases as.any q <;> rfl

/-- The block-suffix check (two passes over the bucket) decides the same
predicate as the whitelist-suffix check (one pass with a disjunction). -/
theorem suffixHitBlock_eq_white (m : List (Str × List Str)) (host : Str) :
    suffixHitBlock m host = suffixHitWhite m host := by
  unfold suffixHitBlock suffixHitWhite
  by_cases hp : 2 ≤ (jsSplit '.' host).length
  · rw [if_pos hp, if_pos hp]
    cases mapGet m (lastTwoJoin (jsSplit '.' host)) with
    | none => rfl
    | some ds =>
      dsimp only
      rw [any_or_split]
  · rw [if_neg hp, if_neg hp]

/-! ### Lowercasing transport lemmas -/

theorem toLower_eq_self_of_lt (c : Char) (h : c.toNat < 65) : c.toLower = c := by
  unfold Char.toLower
  rw [if_neg]
  omega

theorem toNat_ofNat_small (m : Nat) (h : m < 55296) : (Char.ofNat m).toNat = m := by
  unfold Char.ofNat
  rw [dif_pos (Or.inl h)]
  rfl

theorem eq_dot_of_toLower_eq_dot {c : Char} (h : c.toLower = '.') : c = '.' := by
  by_cases hc : c.toNat ≥ 65 ∧ c.toNat ≤ 90
  · exfalso
    unfold Char.toLower at h
    rw [if_pos hc] at h
    have h2 := congrArg Char.toNat h
    rw [toNat_ofNat_small (c.toNat + 32) (by omega)] at h2
    have : ('.').toNat = 46 := by decide
    omega
  · unfold Char.toLower at h
    rw [if_neg hc] at h
    exact h

theorem isDigit_toNat_lt (c : Char) (h : c.isDigit = true) : c.toNat < 65 := by
  unfold Char.isDigit at h
  simp only [Bool.and_eq_true, decide_eq_true_eq] at h
  have h2 := h.2
  rw [UInt32.le_def, BitVec.le_def] at h2
  unfold Char.toNat
  unfold UInt32.toNat
  have : (57 : UInt32).toBitVec.toNat = 57 := by decide
  omega

theorem lowerStr_eq_self_of_digit_dot {host : Str}
    (h : ∀ c ∈ host, c.isDigit = true ∨ c = '.') : lowerStr host = host := by
  unfold lowerStr
  have h2 : ∀ c ∈ host, Char.toLower c = id c := by
    intro c hc
    rcases h c hc with hd | rfl
    · exact toLower_eq_self_of_lt c (isDigit_toNat_lt c hd)
    · decide
  rw [List.map_congr_left h2, List.map_id]

theorem dot_not_mem_lowerStr {host : Str} (h : '.' ∉ host) : '.' ∉ lowerStr host := by
  intro hmem
  obtain ⟨c, hc, hlc⟩ := List.mem_map.mp hmem
  exact h (eq_dot_of_toLower_eq_dot hlc ▸ hc)

theorem local_suffix_lowerStr {host : Str} (h : str ".local" <:+ host) :
    str ".local" <:+ lowerStr host := by
  obtain ⟨p, hp⟩ := h
  refine ⟨lowerStr p, ?_⟩
  rw [← hp]
  unfold lowerStr
  rw [List.map_append]
  congr 1

theorem digitsVal_all_digit {p : Str} {a : Nat} (h : digitsVal p = some a) :
    ∀ c ∈ p, c.isDigit = true := by
  unfold digitsVal at h
  split at h
  · next hcond => exact fun c hc => List.all_eq_true.mp hcond.2 c hc
  · cases h

theorem dnsResolve_chars {host : Str} {ip : IPv4} (h : dnsResolve host = some ip) :
    ∀ c ∈ host, c.isDigit = true ∨ c = '.' := by
  intro c hc
  rcases @mem_jsSplit_of_mem '.' host c hc with hdot | ⟨p, hp, hcp⟩
  · exact Or.inr hdot
  · unfold dnsResolve at h
    split at h
    · next p1 p2 p3 p4 heq =>
      split at h
      · next a b c' d ha hb hc' hd =>
        rw [heq] at hp
        simp only [List.mem_cons, List.mem_singleton, List.not_mem_nil, or_false] at hp
        rcases hp with rfl | rfl | rfl | rfl
        · exact Or.inl (digitsVal_all_digit ha c hcp)
        · exact Or.inl (digitsVal_all_digit hb c hcp)
        · exact Or.inl (digitsVal_all_digit hc' c hcp)
        · exact Or.inl (digitsVal_all_digit hd c hcp)
      · cases h
    · cases h

theorem lowerStr_eq_self_of_dnsResolve {host : Str} {ip : IPv4}
    (h : dnsResolve host = some ip) : lowerStr host = host :=
  lowerStr_eq_self_of_digit_dot (dnsResolve_chars h)

/-! ### Contribution structure of the per-line parser -/

/-- The six containers a parsed line can contribute to (`urlPatterns` is
never written by any branch). -/
inductive RuleField
  | dom
  | domSuf
  | keyw
  | regexPat
  | whiteDom
  | whiteDomSuf
deriving DecidableEq

/-- Container projection by field. -/
def fieldGet (r : ParsedRules) : RuleField → List Str
  | .dom => r.domains
  | .domSuf => r.domainSuffixes
  | .keyw => r.domainKeywords
  | .regexPat => r.regexPatterns
  | .whiteDom => r.whiteDomains
  | .whiteDomSuf => r.whiteDomainSuffixes

/-- Insert a value into the container selected by the field. -/
def fieldAdd (r : ParsedRules) : RuleField → Str → ParsedRules
  | .dom, x => { r with domains := addToSet r.domains x }
  | .domSuf, x => { r with domainSuffixes := addToSet r.domainSuffixes x }
  | .keyw, x => { r with domainKeywords := addToSet r.domainKeywords x }
  | .regexPat, x => { r with regexPatterns := addToSet r.regexPatterns x }
  | .whiteDom, x => { r with whiteDomains := addToSet r.whiteDomains x }
  | .whiteDomSuf, x => { r with whiteDomainSuffixes := addToSet r.whiteDomainSuffixes x }

/-- The classification cascade of `parseLineInto`, separated from the state
update: which container the line feeds, and with which value. -/
def lineContribution (rawLine : Str) : Option (RuleField × Str) :=
  let line := trim rawLine
  if line = [] ∨ line.head? = some '!' ∨ line.head? = some '[' then none
  else
    let isWhite := isWhiteLine line
    let rule := ruleOf line
    if rule.head? = some '/' ∧ rule.getLast? = some '/' then
      some (.regexPat, (rule.drop 1).dropLast)
    else if rule.take 2 = str "||" then
      let domain := ((rule.drop 2).takeWhile (fun c => !(c = '/'))).takeWhile (fun c => !(c = '^'))
      if domain ≠ [] ∧ isValidDomain domain then
        if isWhite then some (.whiteDomSuf, lowerStr domain)
        else some (.domSuf, lowerStr domain)
      else none
    else if rule.head? = some '|' then
      match matchExactUrl (rule.drop 1) with
      | some domain =>
        if isValidDomain domain then
          if isWhite then some (.whiteDom, lowerStr domain)
          else some (.dom, lowerStr domain)
        else none
      | none => none
    else if bareTokenTest rule then
      if isValidDomain rule then
        if isWhite then some (.whiteDomSuf, lowerStr rule)
        else some (.domSuf, lowerStr rule)
      else some (.keyw, lowerStr rule)
    else
      match domainMatch rule with
      | some domain =>
        if isWhite then some (.whiteDomSuf, lowerStr domain)
        else some (.domSuf, lowerStr domain)
      | none => none

/-- Apply an optional contribution to the rule state. -/
def applyContribution (r : ParsedRules) : Option (RuleField × Str) → ParsedRules
  | none => r
  | some (f, x) => fieldAdd r f x

set_option maxHeartbeats 2000000 in
theorem parseLineInto_eq (r : ParsedRules) (l : Str) :
    parseLineInto r l = applyContribution r (lineContribution l) := by
  unfold parseLineInto lineContribution
  dsimp only
  repeat' split
  all_goals first
    | rfl
    | contradiction
    | simp_all [applyContribution, fieldAdd]

/-- Containerwise inclusion of rule states (over the six written fields). -/
def subsetRules (r r' : ParsedRules) : Prop :=
  ∀ f : RuleField, fieldGet r f ⊆ fieldGet r' f

theorem subsetRules_refl (r : ParsedRules) : subsetRules r r := fun _ _ h => h

theorem subsetRules_trans {r r' r'' : ParsedRules}
    (h1 : subsetRules r r') (h2 : subsetRules r' r'') : subsetRules r r'' :=
  fun f _ hx => h2 f (h1 f hx)

theorem fieldGet_fieldAdd_self (r : ParsedRules) (f : RuleField) (x : Str) :
    fieldGet (fieldAdd r f x) f = addToSet (fieldGet r f) x := by
  cases f <;> rfl

theorem subsetRules_fieldAdd (r : ParsedRules) (f : RuleField) (x : Str) :
    subsetRules r (fieldAdd r f x) := by
  intro f'
  cases f <;> cases f' <;>
    first
      | exact subset_addToSet _ _
      | exact fun a h => h

theorem parseLineInto_mono (r : ParsedRules) (l : Str) :
    subsetRules r (parseLineInto r l) := by
  rw [parseLineInto_eq]
  cases h : lineContribution l with
  | none => exact subsetRules_refl r
  | some fx =>
    obtain ⟨f, x⟩ := fx
    exact subsetRules_fieldAdd r f x

theorem foldl_parseLineInto_mono (ls : List Str) (r : ParsedRules) :
    subsetRules r (ls.foldl parseLineInto r) := by
  induction ls generalizing r with
  | nil => exact subsetRules_refl r
  | cons a as ih =>
    exact subsetRules_trans (parseLineInto_mono r a) (ih (parseLineInto r a))

/-- A line whose contribution is already present in the state leaves the
state unchanged: the second processing of a duplicate rule is a no-op. -/
theorem parseLineInto_noop {r s : ParsedRules} (l : Str)
    (h : subsetRules (parseLineInto r l) s) : parseLineInto s l = s := by
  rw [parseLineInto_eq] at h ⊢
  cases hc : lineContribution l with
  | none => rfl
  | some fx =>
    obtain ⟨f, x⟩ := fx
    rw [hc] at h
    have hx : x ∈ fieldGet s f := by
      refine h f ?_
      show x ∈ fieldGet (fieldAdd r f x) f
      rw [fieldGet_fieldAdd_self]
      exact mem_addToSet_self _ _
    show fieldAdd s f x = s
    cases f <;>
      (simp only [fieldGet] at hx
       simp only [fieldAdd]
       rw [addToSet_eq_of_mem hx])

/-! ### Assorted helpers for the claim theorems -/

theorem suffixHitWhite_of_naive {S : List Str} {host : Str}
    (hval : ∀ d ∈ S, '.' ∈ d)
    (h : ∃ d ∈ S, host = d ∨ '.' :: d <:+ host) :
    suffixHitWhite (buildSuffixMap S) host = true := by
  rw [suffix_lookup_core S host hval, naiveSuffixMatch_iff]
  exact h

theorem head?_of_take_two {l : Str} {a b : Char} (h : l.take 2 = [a, b]) :
    l.head? = some a := by
  cases l with
  | nil => simp at h
  | cons x xs =>
    simp only [List.take_succ_cons] at h
    injection h with h1 _
    simp [h1]

theorem isValidDomain_ne_nil {d : Str} (h : isValidDomain d = true) : d ≠ [] := by
  intro hnil
  subst hnil
  simp [isValidDomain] at h

theorem isInNet_dnsResolve_lower {host : Str} {net mask : IPv4}
    (h : isInNet (dnsResolve host) net mask = true) :
    dnsResolve (lowerStr host) = dnsResolve host := by
  cases hdr : dnsResolve host with
  | none =>
    rw [hdr] at h
    exact absurd h (by simp [isInNet])
  | some ip =>
    rw [lowerStr_eq_self_of_dnsResolve hdr]
    exact hdr

/-! ### Claim theorems -/

/-- Claim C1: for every rule state (hence every built lookup table) and every
hostname, if the lowercased host is an exact-whitelist member, or it or one
of its dot-delimited suffixes is a suffix-whitelist member (the suffix
entries being valid domains, i.e. containing a dot, per the data-model
invariant), then the evaluator returns Direct — the whitelist checks precede
every blacklist check, whatever the block containers hold. -/
theorem whitelist_precedence (r : ParsedRules) (url h : Str)
    (hval : ∀ d ∈ r.whiteDomainSuffixes, '.' ∈ d)
    (hw : lowerStr h ∈ r.whiteDomains ∨
      ∃ d ∈ r.whiteDomainSuffixes, lowerStr h = d ∨ '.' :: d <:+ lowerStr h) :
    FindProxyForURL (generatePACTables r) url h = Decision.direct := by
  unfold FindProxyForURL
  dsimp only
  by_cases hloc : isLocalNetwork (lowerStr h) = true
  · rw [if_pos hloc]
  · rw [if_neg hloc]
    by_cases hex :
        (generatePACTables r).whiteExactDomains.any (fun d => decide (lowerStr h = d)) = true
    · rw [if_pos hex]
    · rw [if_neg hex]
      have hsuf : suffixHitWhite (generatePACTables r).whiteMap (lowerStr h) = true := by
        rcases hw with hmem | hnaive
        · exfalso
          apply hex
          rw [List.any_eq_true]
          exact ⟨lowerStr h, hmem, by simp⟩
        · show suffixHitWhite (buildSuffixMap r.whiteDomainSuffixes) (lowerStr h) = true
          exact suffixHitWhite_of_naive hval hnaive
      rw [if_pos hsuf]

/-- A rule state with a whitelist-suffix entry and a more specific
exact-block entry for the same host, for the C1 witness. -/
def c1Rules : ParsedRules :=
  { emptyRules with
    whiteDomainSuffixes := [str "example.com"]
    domains := [str "www.example.com"] }

theorem whitelist_precedence_witness :
    (∀ d ∈ c1Rules.whiteDomainSuffixes, '.' ∈ d) ∧
    (lowerStr (str "www.example.com") ∈ c1Rules.whiteDomains ∨
      ∃ d ∈ c1Rules.whiteDomainSuffixes,
        lowerStr (str "www.example.com") = d ∨
          '.' :: d <:+ lowerStr (str "www.example.com")) ∧
    FindProxyForURL (generatePACTables c1Rules)
      (str "u") (str "www.example.com") = Decision.direct :=
  ⟨by decide, by decide,
    whitelist_precedence c1Rules (str "u") (str "www.example.com") (by decide) (by decide)⟩

/-- Claim C2 counterexample: the host `127.1.0.1` lies in `127.0.0.0/8`, so
the claim says it classifies Direct for every table; but the emitted check
masks with `255.255.255.0` (a /24), so with an exact-block entry for this
address the evaluator returns Proxy. -/
theorem local_loopback_slash8_counterexample :
    FindProxyForURL
      { domainMap := [], whiteMap := [], exactDomains := [str "127.1.0.1"],
        whiteExactDomains := [], keywords := [] }
      (str "u") (str "127.1.0.1") = Decision.proxy := by decide

/-- Claim C2 as amended: the local shortcut fires — for every table — for
hosts with no dot, hosts ending in `.local`, and dotted-decimal addresses in
`10.0.0.0/8`, `172.16.0.0/12`, `192.168.0.0/16`, or `127.0.0.0/24` (the
source masks the 127 network with `255.255.255.0`, not `255.0.0.0`); in
particular every address of the form `127.0.0.z` classifies Direct. -/
theorem local_shortcut_amended (t : PacTables) (url host : Str)
    (h : isPlainHostName host = true ∨ shExpMatchDotLocal host = true ∨
      isInNet (dnsResolve host) (10, 0, 0, 0) (255, 0, 0, 0) = true ∨
      isInNet (dnsResolve host) (172, 16, 0, 0) (255, 240, 0, 0) = true ∨
      isInNet (dnsResolve host) (192, 168, 0, 0) (255, 255, 0, 0) = true ∨
      isInNet (dnsResolve host) (127, 0, 0, 0) (255, 255, 255, 0) = true) :
    FindProxyForURL t url host = Decision.direct := by
  have hloc : isLocalNetwork (lowerStr host) = true := by
    unfold isLocalNetwork
    rcases h with h | h | h | h | h | h
    · have hp : isPlainHostName (lowerStr host) = true := by
        unfold isPlainHostName at h ⊢
        exact decide_eq_true (dot_not_mem_lowerStr (of_decide_eq_true h))
      simp only [Bool.or_eq_true]
      exact Or.inl (Or.inl (Or.inl (Or.inl (Or.inl hp))))
    · have hp : shExpMatchDotLocal (lowerStr host) = true := by
        unfold shExpMatchDotLocal at h ⊢
        exact decide_eq_true (local_suffix_lowerStr (of_decide_eq_true h))
      simp only [Bool.or_eq_true]
      exact Or.inl (Or.inl (Or.inl (Or.inl (Or.inr hp))))
    · rw [isInNet_dnsResolve_lower h]
      simp only [Bool.or_eq_true]
      exact Or.inl (Or.inl (Or.inl (Or.inr h)))
    · rw [isInNet_dnsResolve_lower h]
      simp only [Bool.or_eq_true]
      exact Or.inl (Or.inl (Or.inr h))
    · rw [isInNet_dnsResolve_lower h]
      simp only [Bool.or_eq_true]
      exact Or.inl (Or.inr h)
    · rw [isInNet_dnsResolve_lower h]
      simp only [Bool.or_eq_true]
      exact Or.inr h
  unfold FindProxyForURL
  dsimp only
  rw [if_pos hloc]

theorem local_shortcut_amended_witness :
    isInNet (dnsResolve (str "10.1.2.3")) (10, 0, 0, 0) (255, 0, 0, 0) = true ∧
    FindProxyForURL
      { domainMap := [], whiteMap := [], exactDomains := [], whiteExactDomains := [],
        keywords := [str "10"] } (str "u") (str "10.1.2.3") = Decision.direct :=
  ⟨by decide,
    local_shortcut_amended _ (str "u") (str "10.1.2.3")
      (Or.inr (Or.inr (Or.inl (by decide))))⟩

/-- Claim C3 counterexample: the whitelist marker is not recorded for regex
rules — parsing `@@/foo/` and parsing `/foo/` produce identical rule states
(both put `foo` into the single shared `regexPatterns` container), so
whitelist and block regex rules are not distinguishable in the `RuleSet`. -/
theorem regex_whitelist_flag_counterexample :
    parseGFWListRules (str "@@/foo/") = parseGFWListRules (str "/foo/") := by decide

/-- Claim C3 as amended: a non-comment line whose remainder after optional
`@@` stripping starts and ends with `/` yields exactly one insertion — the
inner text with the delimiters stripped — into the single `regexPatterns`
container, regardless of the `@@` prefix; no whitelist flag is retained. -/
theorem regex_rule_single_container (r : ParsedRules) (l : Str)
    (h1 : trim l ≠ [])
    (h2 : (trim l).head? ≠ some '!')
    (h3 : (trim l).head? ≠ some '[')
    (h4 : (ruleOf (trim l)).head? = some '/' ∧ (ruleOf (trim l)).getLast? = some '/') :
    parseLineInto r l =
      { r with regexPatterns :=
          addToSet r.regexPatterns ((ruleOf (trim l)).drop 1).dropLast } := by
  unfold parseLineInto
  dsimp only
  rw [if_neg (not_or.mpr ⟨h1, not_or.mpr ⟨h2, h3⟩⟩), if_pos h4]

/-- The inner text of the regex rule in the C3 witness line. -/
def c3Inner : Str := ((ruleOf (trim (str "@@/foo/"))).drop 1).dropLast

theorem regex_rule_single_container_witness :
    trim (str "@@/foo/") ≠ [] ∧
    (ruleOf (trim (str "@@/foo/"))).head? = some '/' ∧
    (ruleOf (trim (str "@@/foo/"))).getLast? = some '/' ∧
    parseLineInto emptyRules (str "@@/foo/") =
      { emptyRules with regexPatterns := addToSet emptyRules.regexPatterns c3Inner } :=
  ⟨by decide, by decide, by decide,
    regex_rule_single_container emptyRules (str "@@/foo/")
      (by decide) (by decide) (by decide) (by decide)⟩

/-- Claim C4: the evaluator never consults regex rules — two rule states
agreeing on the exact-block, suffix-block, keyword, exact-whitelist and
suffix-whitelist containers produce tables on which the decision function
returns the same decision for every `(url, host)`, whatever their
`regexPatterns` (and `urlPatterns`) containers hold. -/
theorem regex_never_consulted (r1 r2 : ParsedRules)
    (h1 : r1.domains = r2.domains)
    (h2 : r1.domainSuffixes = r2.domainSuffixes)
    (h3 : r1.domainKeywords = r2.domainKeywords)
    (h4 : r1.whiteDomains = r2.whiteDomains)
    (h5 : r1.whiteDomainSuffixes = r2.whiteDomainSuffixes)
    (url host : Str) :
    FindProxyForURL (generatePACTables r1) url host =
      FindProxyForURL (generatePACTables r2) url host := by
  have htab : generatePACTables r1 = generatePACTables r2 := by
    unfold generatePACTables
    rw [h1, h2, h3, h4, h5]
  rw [htab]

/-- Rule state for the C4 witness: arbitrary regex and url-pattern content. -/
def c4Rules : ParsedRules :=
  { emptyRules with regexPatterns := [str "^https?:evil"], urlPatterns := [str "x"] }

theorem regex_never_consulted_witness :
    emptyRules.domains = c4Rules.domains ∧
    emptyRules.domainSuffixes = c4Rules.domainSuffixes ∧
    emptyRules.domainKeywords = c4Rules.domainKeywords ∧
    emptyRules.whiteDomains = c4Rules.whiteDomains ∧
    emptyRules.whiteDomainSuffixes = c4Rules.whiteDomainSuffixes ∧
    FindProxyForURL (generatePACTables emptyRules) (str "u") (str "a.com") =
      FindProxyForURL (generatePACTables c4Rules) (str "u") (str "a.com") :=
  ⟨rfl, rfl, rfl, rfl, rfl,
    regex_never_consulted emptyRules c4Rules rfl rfl rfl rfl rfl (str "u") (str "a.com")⟩

/-- Claim C5: for every host and every suffix set whose entries contain a
dot, the bucketed lookup emitted by `generatePAC` (probe only the bucket of
the host's last two labels, test `host === d` or trailing `"." + d`) finds a
match exactly when the naive walk over the host's dot-delimited suffixes
finds one — for both the one-pass whitelist form and the two-pass block
form of the emitted check. -/
theorem suffix_lookup_equivalence (S : List Str) (host : Str)
    (hval : ∀ d ∈ S, '.' ∈ d) :
    suffixHitWhite (buildSuffixMap S) host = naiveSuffixMatch S host ∧
      suffixHitBlock (buildSuffixMap S) host = naiveSuffixMatch S host := by
  refine ⟨suffix_lookup_core S host hval, ?_⟩
  rw [suffixHitBlock_eq_white]
  exact suffix_lookup_core S host hval

theorem suffix_lookup_equivalence_witness :
    (∀ d ∈ [str "google.com"], '.' ∈ d) ∧
    (suffixHitWhite (buildSuffixMap [str "google.com"]) (str "maps.google.com") =
        naiveSuffixMatch [str "google.com"] (str "maps.google.com") ∧
      suffixHitBlock (buildSuffixMap [str "google.com"]) (str "maps.google.com") =
        naiveSuffixMatch [str "google.com"] (str "maps.google.com")) :=
  ⟨by decide, suffix_lookup_equivalence [str "google.com"] (str "maps.google.com") (by decide)⟩

/-- Claim C6: for a non-comment line whose remainder after optional `@@`
stripping starts with `||`, the candidate domain is the text after the
marker up to the first `/` or `^`; when it passes `isValidDomain` its
lowercasing is added to the suffix container of the side selected by the
`@@` prefix, and otherwise the line contributes nothing and no error is
raised (the parser is total). -/
theorem suffix_rule_parsing (r : ParsedRules) (l : Str)
    (h1 : trim l ≠ [])
    (h2 : (trim l).head? ≠ some '!')
    (h3 : (trim l).head? ≠ some '[')
    (h4 : (ruleOf (trim l)).take 2 = str "||") :
    parseLineInto r l =
      (let domain := (((ruleOf (trim l)).drop 2).takeWhile
          (fun c => !(c = '/'))).takeWhile (fun c => !(c = '^'))
       if isValidDomain domain then
         if isWhiteLine (trim l) then
           { r with whiteDomainSuffixes := addToSet r.whiteDomainSuffixes (lowerStr domain) }
         else
           { r with domainSuffixes := addToSet r.domainSuffixes (lowerStr domain) }
       else r) := by
  have hhead : (ruleOf (trim l)).head? = some '|' := head?_of_take_two h4
  unfold parseLineInto
  dsimp only
  rw [if_neg (not_or.mpr ⟨h1, not_or.mpr ⟨h2, h3⟩⟩)]
  rw [if_neg (by rintro ⟨ha, -⟩; rw [hhead] at ha; injection ha with ha; cases ha)]
  rw [if_pos h4]
  by_cases hv : isValidDomain ((((ruleOf (trim l)).drop 2).takeWhile
      (fun c => !(c = '/'))).takeWhile (fun c => !(c = '^'))) = true
  · rw [if_pos ⟨isValidDomain_ne_nil hv, hv⟩, if_pos hv]
  · rw [if_neg (by rintro ⟨-, hvv⟩; exact hv hvv), if_neg hv]

theorem suffix_rule_parsing_witness :
    trim (str "||Example.com/x") ≠ [] ∧
    (ruleOf (trim (str "||Example.com/x"))).take 2 = str "||" ∧
    parseLineInto emptyRules (str "||Example.com/x") =
      { emptyRules with domainSuffixes := [str "example.com"] } :=
  ⟨by decide, by decide, by
    have h := suffix_rule_parsing emptyRules (str "||Example.com/x")
      (by decide) (by decide) (by decide) (by decide)
    rw [h]
    decide⟩

/-- Claim C7: keyword matching is plain substring containment — for a host
on which the local shortcut and the whitelist, exact-block and suffix-block
checks all fail, the occurrence of any stored keyword as a contiguous
substring anywhere in the (lowercased) host makes the evaluator return
Proxy. -/
theorem keyword_substring_match (t : PacTables) (url host : Str)
    (h1 : isLocalNetwork (lowerStr host) = false)
    (h2 : t.whiteExactDomains.any (fun d => decide (lowerStr host = d)) = false)
    (h3 : suffixHitWhite t.whiteMap (lowerStr host) = false)
    (h4 : t.exactDomains.any (fun d => decide (lowerStr host = d)) = false)
    (h5 : suffixHitBlock t.domainMap (lowerStr host) = false)
    (h6 : ∃ k ∈ t.keywords, k <:+: lowerStr host) :
    FindProxyForURL t url host = Decision.proxy := by
  unfold FindProxyForURL
  dsimp only
  rw [if_neg (by rw [h1]; exact Bool.false_ne_true)]
  rw [if_neg (by rw [h2]; exact Bool.false_ne_true)]
  rw [if_neg (by rw [h3]; exact Bool.false_ne_true)]
  rw [if_neg (by rw [h4]; exact Bool.false_ne_true)]
  rw [if_neg (by rw [h5]; exact Bool.false_ne_true)]
  rw [if_pos]
  rw [List.any_eq_true]
  obtain ⟨k, hk, hin⟩ := h6
  exact ⟨k, hk, decide_eq_true hin⟩

/-- Tables holding a single keyword `evil`, for the C7 witness. -/
def c7Tables : PacTables :=
  { domainMap := [], whiteMap := [], exactDomains := [], whiteExactDomains := []
    keywords := [str "evil"] }

theorem keyword_substring_match_witness :
    isLocalNetwork (lowerStr (str "notevilsite.com")) = false ∧
    (∃ k ∈ c7Tables.keywords, k <:+: lowerStr (str "notevilsite.com")) ∧
    FindProxyForURL c7Tables (str "u") (str "notevilsite.com") = Decision.proxy :=
  ⟨by decide, by decide,
    keyword_substring_match c7Tables (str "u") (str "notevilsite.com")
      (by decide) (by decide) (by decide) (by decide) (by decide) (by decide)⟩

/-- Claim C8: the line `|https://foo.example.org/path` parses to an exact
(not suffix) block rule on `foo.example.org`: the built tables classify
`foo.example.org` as Proxy and `bar.example.org` as Direct, the rule living
in the exact container and the suffix container staying empty. -/
theorem exact_url_rule_scenario :
    (parseGFWListRules (str "|https://foo.example.org/path")).domains =
      [str "foo.example.org"] ∧
    (parseGFWListRules (str "|https://foo.example.org/path")).domainSuffixes = [] ∧
    FindProxyForURL (generatePACTables (parseGFWListRules (str "|https://foo.example.org/path")))
      (str "u") (str "foo.example.org") = Decision.proxy ∧
    FindProxyForURL (generatePACTables (parseGFWListRules (str "|https://foo.example.org/path")))
      (str "u") (str "bar.example.org") = Decision.direct := by
  decide

/-- Claim C9: aggregation is pure set union — if a rule line occurs in the
feed and again among the user rules, parsing the combined line sequence
yields exactly the same rule state as parsing it with the user-side
duplicate removed; one parser processes every line, so a rule contributes
the same container entry from either stream. -/
theorem aggregation_set_union (feed user : List Str) (l : Str)
    (hf : l ∈ feed) (hu : l ∈ user) :
    parseLines (feed ++ user) = parseLines (feed ++ user.erase l) := by
  obtain ⟨u1, u2, hnotin, hdecomp, herase⟩ := List.exists_erase_eq hu
  obtain ⟨f1, f2, hfeed⟩ := List.append_of_mem hf
  rw [herase, hdecomp]
  unfold parseLines
  have hassoc1 : feed ++ (u1 ++ l :: u2) = (feed ++ u1) ++ l :: u2 := by
    rw [List.append_assoc]
  have hassoc2 : feed ++ (u1 ++ u2) = (feed ++ u1) ++ u2 := by
    rw [List.append_assoc]
  rw [hassoc1, hassoc2]
  have hnoop : parseLineInto (List.foldl parseLineInto emptyRules (feed ++ u1)) l
      = List.foldl parseLineInto emptyRules (feed ++ u1) := by
    refine @parseLineInto_noop (List.foldl parseLineInto emptyRules f1) _ l ?_
    have hfu : feed ++ u1 = f1 ++ l :: (f2 ++ u1) := by
      rw [hfeed, List.append_assoc]
      rfl
    rw [hfu, List.foldl_append, List.foldl_cons]
    exact foldl_parseLineInto_mono _ _
  calc List.foldl parseLineInto emptyRules ((feed ++ u1) ++ l :: u2)
      = List.foldl parseLineInto
          (List.foldl parseLineInto emptyRules (feed ++ u1)) (l :: u2) :=
        List.foldl_append parseLineInto emptyRules (feed ++ u1) (l :: u2)
    _ = List.foldl parseLineInto
          (parseLineInto (List.foldl parseLineInto emptyRules (feed ++ u1)) l) u2 := rfl
    _ = List.foldl parseLineInto
          (List.foldl parseLineInto emptyRules (feed ++ u1)) u2 := by rw [hnoop]
    _ = List.foldl parseLineInto emptyRules ((feed ++ u1) ++ u2) :=
        (List.foldl_append parseLineInto emptyRules (feed ++ u1) u2).symm

theorem aggregation_set_union_witness :
    str "||example.com" ∈ [str "||example.com"] ∧
    str "||example.com" ∈ [str "@@||white.org", str "||example.com"] ∧
    parseLines ([str "||example.com"] ++ [str "@@||white.org", str "||example.com"]) =
      parseLines ([str "||example.com"] ++
        ([str "@@||white.org", str "||example.com"].erase (str "||example.com"))) :=
  ⟨by decide, by decide,
    aggregation_set_union [str "||example.com"] [str "@@||white.org", str "||example.com"]
      (str "||example.com") (by decide) (by decide)⟩

/-- Claim C10: the `urlPatterns` container is unreachable — after parsing
any content it is empty (no classification branch inserts into it), and the
emitted tables do not depend on it (it is never serialized). -/
theorem urlPatterns_unreachable :
    (∀ content : Str, (parseGFWListRules content).urlPatterns = []) ∧
    (∀ (r : ParsedRules) (ps : List Str),
      generatePACTables { r with urlPatterns := ps } = generatePACTables r) := by
  constructor
  · intro content
    unfold parseGFWListRules parseLines
    have key : ∀ (ls : List Str) (r : ParsedRules),
        (ls.foldl parseLineInto r).urlPatterns = r.urlPatterns := by
      intro ls
      induction ls with
      | nil => intro r; rfl
      | cons a as ih =>
        intro r
        rw [List.foldl_cons, ih, parseLineInto_eq]
        cases hc : lineContribution a with
        | none => rfl
        | some fx =>
          obtain ⟨f, x⟩ := fx
          cases f <;> rfl
    rw [key]
    rfl
  · intro r ps
    rfl
